import Mathlib

/-!
# Watch-Finder: verification of the streaming-availability resolution pipeline

Shallow embedding of the repository's two source files:

* `script.js` — the client: provider aggregation (`displayResults`), the
  per-country dropdown cache (`addDropdownListener` / `updateDropdownContent`)
  and `getCountryName`;
* the Azure Function (`src/unnamed/part_000`, two variants) — the key-holding
  relay (`module.exports`) and the watch-page scraper (`scrapeTmdbWatchPage`,
  one variant fetching the page directly, the other through a CORS proxy).

JavaScript strings are modelled as Lean `String`s, but the JS string
primitives the code uses (`trim`, `toLowerCase`, `toUpperCase`, substring
containment, the regex `on (.*)$`) are re-implemented here on the
character list (`String.data`) so that every definition evaluates by kernel
reduction on concrete inputs.  JS `Set`s are insertion-ordered duplicate-free
lists; JS objects are insertion-ordered association lists.  `Array.prototype.sort`
(stable since ES2019) is modelled by a stable insertion sort `jsSort` where
`le a b` means `comparator a b ≤ 0`.
-/

/-! ## Models of the JavaScript string primitives -/

/-- Character-list core of `String.prototype.trim` (strip leading and
trailing whitespace). -/
def trimChars (l : List Char) : List Char :=
  ((l.dropWhile Char.isWhitespace).reverse.dropWhile Char.isWhitespace).reverse

/-- Models JS `String.prototype.trim`. -/
def jsTrim (s : String) : String := ⟨trimChars s.data⟩

/-- Models JS `String.prototype.toLowerCase` (ASCII range; the code only
compares against the ASCII literal "stream"). -/
def jsToLower (s : String) : String := ⟨s.data.map Char.toLower⟩

/-- Models JS `String.prototype.toUpperCase` (ASCII range; applied to
two-letter country codes). -/
def jsToUpper (s : String) : String := ⟨s.data.map Char.toUpper⟩

/-- Boolean test that `p` is a list prefix of `l`. -/
def startsWithChars (p l : List Char) : Bool :=
  match p, l with
  | [], _ => true
  | _ :: _, [] => false
  | a :: ps, b :: cs => a = b && startsWithChars ps cs

/-- Boolean test that `pat` occurs as a contiguous substring of `l`;
models the CSS attribute operator `[href*="…"]`. -/
def hasSubstrChars (pat : List Char) : List Char → Bool
  | [] => pat.isEmpty
  | c :: t => startsWithChars pat (c :: t) || hasSubstrChars pat t

/-- Substring containment on strings. -/
def containsSubstr (s pat : String) : Bool := hasSubstrChars pat.data s.data

/-! ## Availability Aggregator (`script.js`, `displayResults`)

`displayResults` receives `allProviders` — the TMDB map from country code to
offer record — keeps only the `flatrate` list of each country, and groups
countries by provider.  A `RawAvailability` is modelled as the insertion-ordered
association list of `Object.keys(allProviders)`: country code paired with the
optional `flatrate` array. -/

/-- One subscription offer of the TMDB response (`provider_id`,
`provider_name`, `logo_path`). -/
structure Offer where
  provider_id : Nat
  provider_name : String
  logo_path : String
deriving DecidableEq, Repr

/-- Value stored in `providerMap` per provider id:
`{ name: provider.provider_name, logo: provider.logo_path, countries: new Set() }`.
The JS `Set` is an insertion-ordered duplicate-free list. -/
structure PEntry where
  name : String
  logo : String
  countries : List String
deriving DecidableEq, Repr

/-- `Set.prototype.add`: append if not already present. -/
def setAdd (l : List String) (c : String) : List String :=
  if c ∈ l then l else l ++ [c]

/-- `m.any (·.1 = k)`: JS truthiness of `providerMap[id]` (entry objects are
always truthy, so this is a presence test). -/
def hasKey (m : List (Nat × PEntry)) (k : Nat) : Bool :=
  m.any (fun p => p.1 = k)

/-- Replace the value stored under the (unique) key `k`. -/
def updateEntry : List (Nat × PEntry) → Nat → (PEntry → PEntry) → List (Nat × PEntry)
  | [], _, _ => []
  | (k, e) :: t, k', f =>
    if k = k' then (k, f e) :: t else (k, e) :: updateEntry t k' f

/-- One iteration of the inner `forEach`:
`if (!providerMap[id]) providerMap[id] = {name, logo, countries: new Set()};
providerMap[id].countries.add(countryCode);` -/
def addOffer (m : List (Nat × PEntry)) (c : String) (o : Offer) : List (Nat × PEntry) :=
  let m' := if hasKey m o.provider_id then m
            else m ++ [(o.provider_id, ⟨o.provider_name, o.logo_path, []⟩)]
  updateEntry m' o.provider_id (fun e => { e with countries := setAdd e.countries c })

/-- One iteration of the outer `forEach` over `Object.keys(allProviders)`:
countries whose record has no `flatrate` array are skipped. -/
def addCountry (m : List (Nat × PEntry)) (p : String × Option (List Offer)) :
    List (Nat × PEntry) :=
  match p.2 with
  | none => m
  | some offers => offers.foldl (fun acc o => addOffer acc p.1 o) m

/-- The full `providerMap` built by `displayResults` lines 213–224. -/
def providerMap (raw : List (String × Option (List Offer))) : List (Nat × PEntry) :=
  raw.foldl addCountry []

/-- Stable insertion step: the new element is placed before the first element
`b` with `le a b` (JS comparator `comparator(a,b) ≤ 0`). -/
def insertLe (le : α → α → Bool) (a : α) : List α → List α
  | [] => [a]
  | b :: l => if le a b then a :: b :: l else b :: insertLe le a l

/-- Model of `Array.prototype.sort` with comparator `le a b ↔ comparator(a,b) ≤ 0`.
This insertion sort is stable (ties keep input order), as ECMAScript requires. -/
def jsSort (le : α → α → Bool) : List α → List α
  | [] => []
  | a :: l => insertLe le a (jsSort le l)

/-- `Object.values(providerMap)`.  The keys are numeric provider ids, i.e.
array-index property keys, which ECMAScript enumerates in ascending numeric
order (not insertion order). -/
def objectValuesByKey (m : List (Nat × PEntry)) : List PEntry :=
  (jsSort (fun a b => decide (a.1 ≤ b.1)) m).map Prod.snd

/-- The comparator `(a, b) => b.countries.size - a.countries.size` of
`displayResults` line 232, as a binary `≤`-test. -/
def sizeDescLe (a b : PEntry) : Bool :=
  decide (b.countries.length ≤ a.countries.length)

/-- `const sortedProviders = Object.values(providerMap).sort((a, b) => b.countries.size - a.countries.size)`. -/
def sortedProviders (raw : List (String × Option (List Offer))) : List PEntry :=
  jsSort sizeDescLe (objectValuesByKey (providerMap raw))

/-- The multiset of `(country, providerId)` pairs recorded in a provider map:
each entry contributes its countries tagged with its key. -/
def entryPairs : List (Nat × PEntry) → List (String × Nat)
  | [] => []
  | (k, e) :: t => e.countries.map (fun c => (c, k)) ++ entryPairs t

/-- The `(country, providerId)` pairs occurring in the input's flatrate offer
lists, in traversal order and with multiplicity. -/
def flatPairs : List (String × Option (List Offer)) → List (String × Nat)
  | [] => []
  | (_, none) :: t => flatPairs t
  | (c, some os) :: t => os.map (fun o => (c, o.provider_id)) ++ flatPairs t

/-- Keys of the association list are duplicate-free. -/
def keysNodup (m : List (Nat × PEntry)) : Prop := (m.map Prod.fst).Nodup

/-- Every stored countries set is duplicate-free. -/
def countriesNodup (m : List (Nat × PEntry)) : Prop :=
  ∀ p ∈ m, p.2.countries.Nodup

/-! ## Lemmas about `jsSort` -/

theorem mem_insertLe (le : α → α → Bool) (a x : α) (l : List α) :
    x ∈ insertLe le a l ↔ x = a ∨ x ∈ l := by
  induction l with
  | nil => simp [insertLe]
  | cons b t ih =>
    by_cases h : le a b = true
    · simp [insertLe, h]
    · simp only [insertLe, if_neg h, List.mem_cons, ih]
      tauto

theorem insertLe_perm (le : α → α → Bool) (a : α) (l : List α) :
    (insertLe le a l).Perm (a :: l) := by
  induction l with
  | nil => simp [insertLe]
  | cons b t ih =>
    by_cases h : le a b = true
    · simp [insertLe, h]
    · simp only [insertLe, if_neg h]
      exact (ih.cons b).trans (List.Perm.swap a b t)

theorem jsSort_perm (le : α → α → Bool) (l : List α) :
    (jsSort le l).Perm l := by
  induction l with
  | nil => simp [jsSort]
  | cons a t ih => exact (insertLe_perm le a (jsSort le t)).trans (ih.cons a)

theorem mem_jsSort (le : α → α → Bool) (x : α) (l : List α) :
    x ∈ jsSort le l ↔ x ∈ l :=
  (jsSort_perm le l).mem_iff

theorem insertLe_pairwise (le : α → α → Bool)
    (htot : ∀ a b, le a b = true ∨ le b a = true)
    (htrans : ∀ a b c, le a b = true → le b c = true → le a c = true)
    (a : α) (l : List α) (hl : l.Pairwise (fun x y => le x y = true)) :
    (insertLe le a l).Pairwise (fun x y => le x y = true) := by
  induction l with
  | nil => simp [insertLe]
  | cons b t ih =>
    rcases hl with _ | ⟨hb, ht⟩
    by_cases h : le a b = true
    · simp only [insertLe, if_pos h]
      refine List.Pairwise.cons ?_ (List.Pairwise.cons hb ht)
      intro y hy
      rcases List.mem_cons.mp hy with rfl | hyt
      · exact h
      · exact htrans a b y h (hb y hyt)
    · simp only [insertLe, if_neg h]
      refine List.Pairwise.cons ?_ (ih ht)
      intro y hy
      rcases (mem_insertLe le a y t).mp hy with rfl | hyt
      · rcases htot y b with hab | hba
        · exact absurd hab h
        · exact hba
      · exact hb y hyt

theorem jsSort_pairwise (le : α → α → Bool)
    (htot : ∀ a b, le a b = true ∨ le b a = true)
    (htrans : ∀ a b c, le a b = true → le b c = true → le a c = true)
    (l : List α) :
    (jsSort le l).Pairwise (fun x y => le x y = true) := by
  induction l with
  | nil => simp [jsSort]
  | cons a t ih => exact insertLe_pairwise le htot htrans a (jsSort le t) ih

/-- Stability of `insertLe`: inserting `a` into a list already pairwise
related to `a` by the secondary relation `R2` keeps the combined invariant
"primary-sorted, and ties respect `R2`". -/
theorem insertLe_stable (le : α → α → Bool) (R2 : α → α → Prop)
    (htot : ∀ a b, le a b = true ∨ le b a = true)
    (htrans : ∀ a b c, le a b = true → le b c = true → le a c = true)
    (a : α) (l : List α)
    (hl : l.Pairwise (fun x y => le x y = true ∧ (le y x = true → R2 x y)))
    (ha : ∀ x ∈ l, R2 a x) :
    (insertLe le a l).Pairwise
      (fun x y => le x y = true ∧ (le y x = true → R2 x y)) := by
  induction l with
  | nil => simp [insertLe]
  | cons b t ih =>
    rcases hl with _ | ⟨hb, ht⟩
    by_cases h : le a b = true
    · simp only [insertLe, if_pos h]
      refine List.Pairwise.cons ?_ (List.Pairwise.cons hb ht)
      intro y hy
      rcases List.mem_cons.mp hy with rfl | hyt
      · exact ⟨h, fun _ => ha y (List.mem_cons_self _ _)⟩
      · exact ⟨htrans a b y h (hb y hyt).1, fun _ => ha y (List.mem_cons_of_mem _ hyt)⟩
    · simp only [insertLe, if_neg h]
      refine List.Pairwise.cons ?_ (ih ht (fun x hx => ha x (List.mem_cons_of_mem _ hx)))
      intro y hy
      rcases (mem_insertLe le a y t).mp hy with rfl | hyt
      · refine ⟨?_, fun hab => absurd hab h⟩
        rcases htot y b with hab | hba
        · exact absurd hab h
        · exact hba
      · exact hb y hyt

/-- Stability of `jsSort`: sorting with `le` a list that is pairwise `R2`
produces a list that is `le`-pairwise and whose `le`-ties still satisfy
`R2` in order. -/
theorem jsSort_stable (le : α → α → Bool) (R2 : α → α → Prop)
    (htot : ∀ a b, le a b = true ∨ le b a = true)
    (htrans : ∀ a b c, le a b = true → le b c = true → le a c = true)
    (l : List α) (hl : l.Pairwise R2) :
    (jsSort le l).Pairwise
      (fun x y => le x y = true ∧ (le y x = true → R2 x y)) := by
  induction l with
  | nil => simp [jsSort]
  | cons a t ih =>
    rcases hl with _ | ⟨hA, ht⟩
    exact insertLe_stable le R2 htot htrans a (jsSort le t) (ih ht)
      (fun x hx => hA x ((mem_jsSort le x t).mp hx))

theorem insertLe_map (f : α → β) (le : β → β → Bool) (a : α) (l : List α) :
    insertLe le (f a) (l.map f) = (insertLe (fun x y => le (f x) (f y)) a l).map f := by
  induction l with
  | nil => simp [insertLe]
  | cons b t ih =>
    by_cases h : le (f a) (f b) = true
    · simp [insertLe, h]
    · simp [insertLe, h, ih]

theorem jsSort_map (f : α → β) (le : β → β → Bool) (l : List α) :
    jsSort le (l.map f) = (jsSort (fun x y => le (f x) (f y)) l).map f := by
  induction l with
  | nil => simp [jsSort]
  | cons a t ih => simp only [List.map_cons, jsSort, ih, insertLe_map]

/-- Two sorted permutations of each other agree, provided the order is
antisymmetric on the elements involved. -/
theorem eq_of_perm_of_pairwise {R : α → α → Prop} :
    ∀ {l₁ l₂ : List α}, l₁.Perm l₂ → l₁.Pairwise R → l₂.Pairwise R →
      (∀ a ∈ l₁, ∀ b ∈ l₁, R a b → R b a → a = b) → l₁ = l₂ := by
  intro l₁
  induction l₁ with
  | nil =>
    intro l₂ hp _ _ _
    exact (hp.symm.eq_nil).symm ▸ rfl
  | cons a t₁ ih =>
    intro l₂ hp h₁ h₂ hanti
    cases l₂ with
    | nil => exact absurd hp.symm (by simp)
    | cons b t₂ =>
      rcases h₁ with _ | ⟨hA, ht₁⟩
      rcases h₂ with _ | ⟨hB, ht₂⟩
      by_cases hab : a = b
      · subst hab
        have htp : t₁.Perm t₂ := hp.cons_inv
        have : t₁ = t₂ := by
          refine ih htp ht₁ ht₂ ?_
          intro x hx y hy hxy hyx
          exact hanti x (List.mem_cons_of_mem _ hx) y (List.mem_cons_of_mem _ hy) hxy hyx
        rw [this]
      · exfalso
        have hbmem : b ∈ a :: t₁ := hp.mem_iff.mpr (List.mem_cons_self _ _)
        have hbt₁ : b ∈ t₁ := by
          rcases List.mem_cons.mp hbmem with h | h
          · exact absurd h.symm hab
          · exact h
        have hamem : a ∈ b :: t₂ := hp.mem_iff.mp (List.mem_cons_self _ _)
        have hat₂ : a ∈ t₂ := by
          rcases List.mem_cons.mp hamem with h | h
          · exact absurd h hab
          · exact h
        exact hab (hanti a (List.mem_cons_self _ _) b (List.mem_cons_of_mem _ hbt₁)
          (hA b hbt₁) (hB a hat₂))

/-! ## Invariants of `providerMap` and the pair-counting argument (C1) -/

theorem mem_setAdd (l : List String) (c d : String) :
    d ∈ setAdd l c ↔ d ∈ l ∨ d = c := by
  unfold setAdd
  by_cases h : c ∈ l
  · simp only [if_pos h]
    constructor
    · exact Or.inl
    · rintro (hd | rfl)
      · exact hd
      · exact h
  · simp [if_neg h]

theorem setAdd_nodup (l : List String) (c : String) (hl : l.Nodup) :
    (setAdd l c).Nodup := by
  unfold setAdd
  by_cases h : c ∈ l
  · simpa [if_pos h] using hl
  · simp [if_neg h, List.nodup_append, hl, h]

theorem hasKey_iff (m : List (Nat × PEntry)) (k : Nat) :
    hasKey m k = true ↔ k ∈ m.map Prod.fst := by
  simp only [hasKey, List.any_eq_true, List.mem_map, decide_eq_true_eq]

theorem map_fst_updateEntry (m : List (Nat × PEntry)) (k : Nat) (f : PEntry → PEntry) :
    (updateEntry m k f).map Prod.fst = m.map Prod.fst := by
  induction m with
  | nil => rfl
  | cons p t ih =>
    obtain ⟨k₀, e₀⟩ := p
    by_cases h : k₀ = k
    · simp [updateEntry, h]
    · simp [updateEntry, h, ih]

theorem mem_entryPairs_update (m : List (Nat × PEntry)) (k : Nat) (c : String)
    (hk : hasKey m k = true) (x : String × Nat) :
    x ∈ entryPairs (updateEntry m k (fun e => { e with countries := setAdd e.countries c })) ↔
      x ∈ entryPairs m ∨ x = (c, k) := by
  induction m with
  | nil => simp [hasKey] at hk
  | cons p t ih =>
    obtain ⟨k₀, e₀⟩ := p
    by_cases h : k₀ = k
    · subst h
      simp only [updateEntry, if_pos rfl, entryPairs, List.mem_append, List.mem_map]
      constructor
      · rintro (⟨d, hd, rfl⟩ | ht)
        · rcases (mem_setAdd _ _ _).mp hd with hd | rfl
          · exact Or.inl (Or.inl ⟨d, hd, rfl⟩)
          · exact Or.inr rfl
        · exact Or.inl (Or.inr ht)
      · rintro ((⟨d, hd, rfl⟩ | ht) | rfl)
        · exact Or.inl ⟨d, (mem_setAdd _ _ _).mpr (Or.inl hd), rfl⟩
        · exact Or.inr ht
        · exact Or.inl ⟨c, (mem_setAdd _ _ _).mpr (Or.inr rfl), rfl⟩
    · have hk' : hasKey t k = true := by
        simp only [hasKey, List.any_cons] at hk
        rcases Bool.or_eq_true_iff.mp hk with h₀ | h₁
        · exact absurd (of_decide_eq_true h₀) h
        · exact h₁
      simp only [updateEntry, if_neg h, entryPairs, List.mem_append, ih hk']
      tauto

theorem entryPairs_append (m₁ m₂ : List (Nat × PEntry)) :
    entryPairs (m₁ ++ m₂) = entryPairs m₁ ++ entryPairs m₂ := by
  induction m₁ with
  | nil => rfl
  | cons p t ih =>
    obtain ⟨k₀, e₀⟩ := p
    simp [entryPairs, ih]

theorem mem_entryPairs_addOffer (m : List (Nat × PEntry)) (c : String) (o : Offer)
    (x : String × Nat) :
    x ∈ entryPairs (addOffer m c o) ↔ x ∈ entryPairs m ∨ x = (c, o.provider_id) := by
  unfold addOffer
  by_cases h : hasKey m o.provider_id = true
  · simp only [if_pos h]
    exact mem_entryPairs_update m _ c h x
  · simp only [if_neg h]
    have hk : hasKey (m ++ [(o.provider_id, ⟨o.provider_name, o.logo_path, []⟩)])
        o.provider_id = true := by
      rw [hasKey_iff]
      simp
    rw [mem_entryPairs_update _ _ _ hk, entryPairs_append]
    simp [entryPairs]

theorem keysNodup_addOffer (m : List (Nat × PEntry)) (c : String) (o : Offer)
    (hm : keysNodup m) : keysNodup (addOffer m c o) := by
  unfold addOffer keysNodup
  by_cases h : hasKey m o.provider_id = true
  · simpa [if_pos h, map_fst_updateEntry] using hm
  · have hnk : o.provider_id ∉ m.map Prod.fst := fun hc => h ((hasKey_iff _ _).mpr hc)
    simp [if_neg h, map_fst_updateEntry, List.nodup_append, hnk]
    exact hm

theorem countriesNodup_update_setAdd (m : List (Nat × PEntry)) (k : Nat) (c : String)
    (hm : countriesNodup m) :
    countriesNodup (updateEntry m k (fun e => { e with countries := setAdd e.countries c })) := by
  induction m with
  | nil => exact hm
  | cons p t ih =>
    obtain ⟨k₀, e₀⟩ := p
    by_cases h : k₀ = k
    · subst h
      simp only [updateEntry, if_pos rfl]
      intro q hq
      rcases List.mem_cons.mp hq with h1 | h2
      · rw [h1]
        exact setAdd_nodup _ _ (hm ⟨k₀, e₀⟩ (List.mem_cons_self _ _))
      · exact hm q (List.mem_cons_of_mem _ h2)
    · simp only [updateEntry, if_neg h]
      intro q hq
      rcases List.mem_cons.mp hq with h1 | h2
      · rw [h1]
        exact hm ⟨k₀, e₀⟩ (List.mem_cons_self _ _)
      · exact ih (fun r hr => hm r (List.mem_cons_of_mem _ hr)) q h2

theorem countriesNodup_addOffer (m : List (Nat × PEntry)) (c : String) (o : Offer)
    (hm : countriesNodup m) : countriesNodup (addOffer m c o) := by
  unfold addOffer
  by_cases h : hasKey m o.provider_id = true
  · simp only [if_pos h]
    exact countriesNodup_update_setAdd m _ c hm
  · simp only [if_neg h]
    refine countriesNodup_update_setAdd _ _ c ?_
    intro q hq
    rcases List.mem_append.mp hq with hq | hq
    · exact hm q hq
    · simp only [List.mem_singleton] at hq
      subst hq
      exact List.nodup_nil

theorem mem_entryPairs_addOffers (os : List Offer) (c : String) :
    ∀ (m : List (Nat × PEntry)) (x : String × Nat),
      x ∈ entryPairs (os.foldl (fun acc o => addOffer acc c o) m) ↔
        x ∈ entryPairs m ∨ x ∈ os.map (fun o => (c, o.provider_id)) := by
  induction os with
  | nil => simp
  | cons o t ih =>
    intro m x
    simp only [List.foldl_cons, ih, mem_entryPairs_addOffer, List.map_cons, List.mem_cons]
    tauto

theorem keysNodup_addOffers (os : List Offer) (c : String) :
    ∀ (m : List (Nat × PEntry)), keysNodup m →
      keysNodup (os.foldl (fun acc o => addOffer acc c o) m) := by
  induction os with
  | nil => exact fun m hm => hm
  | cons o t ih =>
    intro m hm
    exact ih _ (keysNodup_addOffer m c o hm)

theorem countriesNodup_addOffers (os : List Offer) (c : String) :
    ∀ (m : List (Nat × PEntry)), countriesNodup m →
      countriesNodup (os.foldl (fun acc o => addOffer acc c o) m) := by
  induction os with
  | nil => exact fun m hm => hm
  | cons o t ih =>
    intro m hm
    exact ih _ (countriesNodup_addOffer m c o hm)

theorem mem_entryPairs_foldl_addCountry (raw : List (String × Option (List Offer))) :
    ∀ (m : List (Nat × PEntry)) (x : String × Nat),
      x ∈ entryPairs (raw.foldl addCountry m) ↔ x ∈ entryPairs m ∨ x ∈ flatPairs raw := by
  induction raw with
  | nil => simp [flatPairs]
  | cons p t ih =>
    intro m x
    obtain ⟨c, fl⟩ := p
    cases fl with
    | none => simp only [List.foldl_cons, addCountry, ih, flatPairs]
    | some os =>
      simp only [List.foldl_cons, addCountry, ih, mem_entryPairs_addOffers, flatPairs,
        List.mem_append]
      tauto

theorem keysNodup_providerMap (raw : List (String × Option (List Offer))) :
    keysNodup (providerMap raw) := by
  suffices h : ∀ (m : List (Nat × PEntry)), keysNodup m → keysNodup (raw.foldl addCountry m) by
    exact h [] (by simp [keysNodup])
  induction raw with
  | nil => exact fun m hm => hm
  | cons p t ih =>
    intro m hm
    obtain ⟨c, fl⟩ := p
    cases fl with
    | none => exact ih m hm
    | some os => exact ih _ (keysNodup_addOffers os c m hm)

theorem countriesNodup_providerMap (raw : List (String × Option (List Offer))) :
    countriesNodup (providerMap raw) := by
  suffices h : ∀ (m : List (Nat × PEntry)), countriesNodup m →
      countriesNodup (raw.foldl addCountry m) by
    exact h [] (by intro p hp; simp at hp)
  induction raw with
  | nil => exact fun m hm => hm
  | cons p t ih =>
    intro m hm
    obtain ⟨c, fl⟩ := p
    cases fl with
    | none => exact ih m hm
    | some os => exact ih _ (countriesNodup_addOffers os c m hm)

theorem mem_entryPairs_providerMap (raw : List (String × Option (List Offer)))
    (x : String × Nat) : x ∈ entryPairs (providerMap raw) ↔ x ∈ flatPairs raw := by
  rw [providerMap, mem_entryPairs_foldl_addCountry raw [] x]
  simp [entryPairs]

theorem entryPairs_length (m : List (Nat × PEntry)) :
    (entryPairs m).length = (m.map (fun p => p.2.countries.length)).sum := by
  induction m with
  | nil => rfl
  | cons p t ih =>
    obtain ⟨k, e⟩ := p
    simp [entryPairs, ih]

theorem mem_entryPairs_snd (m : List (Nat × PEntry)) (x : String × Nat)
    (hx : x ∈ entryPairs m) : x.2 ∈ m.map Prod.fst := by
  induction m with
  | nil => simp [entryPairs] at hx
  | cons p t ih =>
    obtain ⟨k, e⟩ := p
    simp only [entryPairs, List.mem_append, List.mem_map] at hx
    rcases hx with ⟨d, _, rfl⟩ | hx
    · simp
    · simp only [List.map_cons, List.mem_cons]
      exact Or.inr (ih hx)

theorem entryPairs_nodup (m : List (Nat × PEntry)) (hk : keysNodup m)
    (hc : countriesNodup m) : (entryPairs m).Nodup := by
  induction m with
  | nil => exact List.nodup_nil
  | cons p t ih =>
    obtain ⟨k, e⟩ := p
    unfold keysNodup at hk
    simp only [List.map_cons, List.nodup_cons] at hk
    refine List.Nodup.append ?_ (ih hk.2 (fun r hr => hc r (List.mem_cons_of_mem _ hr))) ?_
    · refine List.Nodup.map ?_ (hc ⟨k, e⟩ (List.mem_cons_self _ _))
      intro a b hab
      simpa using congrArg Prod.fst hab
    · intro x hx₁ hx₂
      have h2 : x.2 = k := by
        rcases List.mem_map.mp hx₁ with ⟨d, _, rfl⟩
        rfl
      exact hk.1 (h2 ▸ mem_entryPairs_snd t x hx₂)

theorem sortedProviders_perm (raw : List (String × Option (List Offer))) :
    (sortedProviders raw).Perm ((providerMap raw).map Prod.snd) := by
  unfold sortedProviders objectValuesByKey
  exact (jsSort_perm _ _).trans ((jsSort_perm _ _).map Prod.snd)

/-- **C1.**  For every `RawAvailability` input, the sum over all produced
`ProviderEntry` values (`sortedProviders`) of the sizes of their countries
sets equals the number of distinct `(country, providerId)` pairs occurring
in the input's flatrate offer lists: no pair is lost, none counted twice. -/
theorem sortedProviders_sum_eq_distinct_pairs (raw : List (String × Option (List Offer))) :
    ((sortedProviders raw).map (fun e => e.countries.length)).sum
      = (flatPairs raw).toFinset.card := by
  have h1 : ((sortedProviders raw).map (fun e => e.countries.length)).sum
      = (((providerMap raw).map Prod.snd).map (fun e => e.countries.length)).sum :=
    ((sortedProviders_perm raw).map _).sum_eq
  have hnd : (entryPairs (providerMap raw)).Nodup :=
    entryPairs_nodup _ (keysNodup_providerMap raw) (countriesNodup_providerMap raw)
  have h2 : (entryPairs (providerMap raw)).toFinset = (flatPairs raw).toFinset := by
    apply Finset.ext
    intro x
    simp only [List.mem_toFinset]
    exact mem_entryPairs_providerMap raw x
  rw [h1, List.map_map]
  have h3 : (((providerMap raw).map ((fun e => e.countries.length) ∘ Prod.snd)).sum)
      = (entryPairs (providerMap raw)).length := (entryPairs_length _).symm
  rw [h3, ← List.toFinset_card_of_nodup hnd, h2]

/-! ## Output order of the Aggregator (C2) -/

/-- Lexicographic comparator on keyed provider entries: countries-set size
descending, ties broken by ascending provider id. -/
def lexLe (a b : Nat × PEntry) : Bool :=
  decide (b.2.countries.length < a.2.countries.length) ||
    (decide (a.2.countries.length = b.2.countries.length) && decide (a.1 ≤ b.1))

/-- The provider entries in first-encounter order: the insertion order of
`providerMap`. -/
def encounterValues (raw : List (String × Option (List Offer))) : List PEntry :=
  (providerMap raw).map Prod.snd

theorem keysNodup_inj (m : List (Nat × PEntry)) (hk : keysNodup m) :
    ∀ a ∈ m, ∀ b ∈ m, a.1 = b.1 → a = b := by
  induction m with
  | nil => intro a ha; simp at ha
  | cons p t ih =>
    unfold keysNodup at hk
    simp only [List.map_cons, List.nodup_cons] at hk
    intro a ha b hb hab
    rcases List.mem_cons.mp ha with rfl | hat
    · rcases List.mem_cons.mp hb with rfl | hbt
      · rfl
      · exact absurd (hab ▸ List.mem_map_of_mem Prod.fst hbt) hk.1
    · rcases List.mem_cons.mp hb with rfl | hbt
      · exact absurd (hab ▸ List.mem_map_of_mem Prod.fst hat) hk.1
      · exact ih hk.2 a hat b hbt hab

theorem lexLe_total (a b : Nat × PEntry) : lexLe a b = true ∨ lexLe b a = true := by
  simp only [lexLe, Bool.or_eq_true, Bool.and_eq_true, decide_eq_true_eq]
  omega

theorem lexLe_trans (a b c : Nat × PEntry)
    (hab : lexLe a b = true) (hbc : lexLe b c = true) : lexLe a c = true := by
  simp only [lexLe, Bool.or_eq_true, Bool.and_eq_true, decide_eq_true_eq] at *
  omega

/-- **C2 (amended).**  The produced sequence equals the provider-map entries
sorted by the lexicographic order "countries-set size descending, provider id
ascending": the output is non-increasing in countries-set size, but entries of
equal size appear in ascending provider-id order (`Object.values` enumerates
the numeric keys ascending before the stable size sort runs), not in
first-encounter order. -/
theorem sortedProviders_eq_lex_sort (raw : List (String × Option (List Offer))) :
    sortedProviders raw = (jsSort lexLe (providerMap raw)).map Prod.snd := by
  have hkn := keysNodup_providerMap raw
  have hnat : sortedProviders raw
      = (jsSort (fun a b : Nat × PEntry => sizeDescLe a.2 b.2)
          (jsSort (fun a b : Nat × PEntry => decide (a.1 ≤ b.1)) (providerMap raw))).map
            Prod.snd := by
    unfold sortedProviders objectValuesByKey
    exact jsSort_map Prod.snd sizeDescLe _
  rw [hnat]
  congr 1
  have hperm :
      (jsSort (fun a b : Nat × PEntry => sizeDescLe a.2 b.2)
        (jsSort (fun a b : Nat × PEntry => decide (a.1 ≤ b.1)) (providerMap raw))).Perm
        (jsSort lexLe (providerMap raw)) :=
    ((jsSort_perm _ _).trans (jsSort_perm _ _)).trans (jsSort_perm lexLe _).symm
  have hkey : (jsSort (fun a b : Nat × PEntry => decide (a.1 ≤ b.1))
      (providerMap raw)).Pairwise (fun a b => a.1 ≤ b.1) := by
    have := jsSort_pairwise (fun a b : Nat × PEntry => decide (a.1 ≤ b.1))
      (fun a b => by rcases Nat.le_total a.1 b.1 with h | h <;> simp [h])
      (fun a b c hab hbc => by
        simp only [decide_eq_true_eq] at *
        omega)
      (providerMap raw)
    exact this.imp (fun h => of_decide_eq_true h)
  have hstab := jsSort_stable (fun a b : Nat × PEntry => sizeDescLe a.2 b.2)
    (fun a b => a.1 ≤ b.1)
    (fun a b => by
      simp only [sizeDescLe]
      rcases Nat.le_total a.2.countries.length b.2.countries.length with h | h <;> simp [h])
    (fun a b c hab hbc => by
      simp only [sizeDescLe, decide_eq_true_eq] at *
      omega)
    _ hkey
  have hpw1 : (jsSort (fun a b : Nat × PEntry => sizeDescLe a.2 b.2)
      (jsSort (fun a b : Nat × PEntry => decide (a.1 ≤ b.1)) (providerMap raw))).Pairwise
        (fun a b => lexLe a b = true) := by
    refine hstab.imp ?_
    intro a b hab
    obtain ⟨h1, h2⟩ := hab
    simp only [sizeDescLe, decide_eq_true_eq] at h1 h2
    simp only [lexLe, Bool.or_eq_true, Bool.and_eq_true, decide_eq_true_eq]
    omega
  have hpw2 : (jsSort lexLe (providerMap raw)).Pairwise (fun a b => lexLe a b = true) :=
    jsSort_pairwise lexLe lexLe_total lexLe_trans _
  refine eq_of_perm_of_pairwise hperm hpw1 hpw2 ?_
  intro a ha b hb hab hba
  have ham : a ∈ providerMap raw :=
    ((jsSort_perm _ _).trans (jsSort_perm _ _)).mem_iff.mp ha
  have hbm : b ∈ providerMap raw :=
    ((jsSort_perm _ _).trans (jsSort_perm _ _)).mem_iff.mp hb
  refine keysNodup_inj _ hkn a ham b hbm ?_
  simp only [lexLe, Bool.or_eq_true, Bool.and_eq_true, decide_eq_true_eq] at hab hba
  omega

/-- Concrete input for the C2 counterexample: one country, two providers
with ids 9 and 8 encountered in that order. -/
def c2raw : List (String × Option (List Offer)) :=
  [("US", some [⟨9, "A", "la"⟩, ⟨8, "B", "lb"⟩])]

/-- **C2 (counterexample).**  On `c2raw` every produced entry has a
countries set of size 1 (all entries tie), yet the output is not in
first-encounter order: provider id 9 ("A") was encountered first but the
output lists id 8 ("B") first.  This refutes the claim that ties appear in
input encounter order. -/
theorem sortedProviders_tie_not_encounter_order :
    sortedProviders c2raw = [⟨"B", "lb", ["US"]⟩, ⟨"A", "la", ["US"]⟩] ∧
    encounterValues c2raw = [⟨"A", "la", ["US"]⟩, ⟨"B", "lb", ["US"]⟩] ∧
    (∀ e ∈ sortedProviders c2raw, e.countries.length = 1) ∧
    sortedProviders c2raw ≠ encounterValues c2raw := by
  refine ⟨by decide, by decide, by decide, by decide⟩

/-! ## Page Extractor (`scrapeTmdbWatchPage`, both variants of the Azure
Function)

The scraped page is modelled as the parsed-document abstraction the design
notes describe: a tree of elements carrying the only attributes the code
reads — tag name, class list, `title`, `href` and `textContent` (DOM
properties `a.title`/`a.href` default to the empty string when the attribute
is absent, hence plain `String` fields).  JSDOM parses *any* text into such a
tree without throwing, so quantifying over all trees (plus the explicit fetch
failure outcomes) covers every text input. -/

inductive Elem where
  | mk (tag : String) (classes : List String) (attrTitle : String)
       (href : String) (text : String) (children : List Elem)

def Elem.tag : Elem → String | .mk t _ _ _ _ _ => t

def Elem.classes : Elem → List String | .mk _ c _ _ _ _ => c

def Elem.attrTitle : Elem → String | .mk _ _ ti _ _ _ => ti

def Elem.href : Elem → String | .mk _ _ _ h _ _ => h

def Elem.text : Elem → String | .mk _ _ _ _ tx _ => tx

def Elem.children : Elem → List Elem | .mk _ _ _ _ _ ch => ch

mutual

/-- An element together with its descendants, in document (pre-)order. -/
def elemDesc : Elem → List Elem
  | .mk t c ti h tx ch => .mk t c ti h tx ch :: elemsDesc ch

/-- All elements of a forest with their descendants, in document order. -/
def elemsDesc : List Elem → List Elem
  | [] => []
  | e :: es => elemDesc e ++ elemsDesc es

end

/-- The search space of `element.querySelector(…)`: the descendants of the
element (excluding the element itself), in document order. -/
def descOf (e : Elem) : List Elem := elemsDesc e.children

/-- Consecutive sibling pairs, for the adjacent-sibling combinator `+`. -/
def adjPairs : List Elem → List (Elem × Elem)
  | [] => []
  | [_] => []
  | x :: y :: rest => (x, y) :: adjPairs (y :: rest)

/-- Every sibling list of the document: the root list and the child list of
every element. -/
def siblingLists (roots : List Elem) : List (List Elem) :=
  roots :: (elemsDesc roots).map Elem.children

/-- `doc.querySelector('.ott_title + p a[href*="justwatch.com"]')` followed by
`.href`: the first anchor with an href containing "justwatch.com" inside a
`p` element that immediately follows an `.ott_title` sibling. -/
def findJustWatchUrl (roots : List Elem) : Option String :=
  (((siblingLists roots).flatMap adjPairs).filter
      (fun p => decide ("ott_title" ∈ p.1.classes) && (p.2.tag == "p"))
    |>.flatMap (fun p => (descOf p.2).filter
      (fun a => (a.tag == "a") && containsSubstr a.href "justwatch.com"))).head?.map Elem.href

/-- JS line-terminator characters, which `.` in a regex never matches. -/
def isLineTerminator (c : Char) : Bool :=
  c = '\n' || c = '\r' || c = ' ' || c = ' '

/-- The suffix of the string after its last line terminator.  Since the
pattern `on (.*)$` must reach the end of input with `.*` (which cannot cross
a line terminator), only this final segment can match. -/
def lastLineSegment (l : List Char) : List Char :=
  (l.reverse.takeWhile (fun c => !isLineTerminator c)).reverse

/-- The capture of the leftmost match of `on (.*)$` inside the final line
segment: regexes match at the leftmost possible position, so this scans for
the first occurrence of the literal "on " and returns everything after it. -/
def firstOnSuffixL : List Char → Option (List Char)
  | c1 :: c2 :: c3 :: rest =>
    if c1 = 'o' ∧ c2 = 'n' ∧ c3 = ' ' then some rest
    else firstOnSuffixL (c2 :: c3 :: rest)
  | _ => none

/-- `link.title.match(/on (.*)$/)` followed by the `!match || !match[1]`
guard: the provider name is the (untrimmed) capture of the leftmost match,
and an absent or empty capture means the entry is skipped. -/
def providerNameOf (title : String) : Option String :=
  match firstOnSuffixL (lastLineSegment title.data) with
  | none => none
  | some cap => if cap = [] then none else some ⟨cap⟩

/-- Result of one scrape: `{ justWatchUrl, providersInfo }` where
`providersInfo` maps provider name to its quality array (the JS `Set`
converted by `Array.from`, hence in insertion order). -/
structure ExtractionResult where
  justWatchUrl : Option String
  providersInfo : List (String × List String)
deriving DecidableEq, Repr

/-- `{ justWatchUrl: null, providersInfo: {} }`. -/
def emptyExtraction : ExtractionResult := ⟨none, []⟩

/-- First-match update of the provider-info association list. -/
def updateInfo : List (String × List String) → String → (List String → List String) →
    List (String × List String)
  | [], _, _ => []
  | (n, qs) :: t, n', f =>
    if n = n' then (n, f qs) :: t else (n, qs) :: updateInfo t n' f

/-- Truthiness of `providersInfo[providerName]`. -/
def hasName (acc : List (String × List String)) (n : String) : Bool :=
  acc.any (fun p => p.1 = n)

/-- The three `li.classList.contains('ott_filter_…')` checks, executed in
source order 4K, HD, SD, each adding to the provider's quality set. -/
def addQualities (li : Elem) (l : List String) : List String :=
  let l1 := if "ott_filter_4k" ∈ li.classes then setAdd l "4K" else l
  let l2 := if "ott_filter_hd" ∈ li.classes then setAdd l1 "HD" else l1
  if "ott_filter_sd" ∈ li.classes then setAdd l2 "SD" else l2

/-- `li.querySelector('a')`. -/
def offerAnchor (li : Elem) : Option Elem :=
  (descOf li).find? (fun e => e.tag == "a")

/-- Body of `offerElements.forEach(li => …)`: resolve the anchor, check its
title, extract the provider name, create the entry on first sight, and
accumulate the quality markers. -/
def processOffer (acc : List (String × List String)) (li : Elem) :
    List (String × List String) :=
  match offerAnchor li with
  | none => acc
  | some link =>
    if link.attrTitle = "" then acc
    else
      match providerNameOf link.attrTitle with
      | none => acc
      | some name =>
        let acc' := if hasName acc name then acc else acc ++ [(name, [])]
        updateInfo acc' name (addQualities li)

/-- `section.querySelectorAll('ul.providers > li')`. -/
def offerItems (s : Elem) : List Elem :=
  ((descOf s).filter (fun u => (u.tag == "ul") && decide ("providers" ∈ u.classes))).flatMap
    (fun u => u.children.filter (fun li => li.tag == "li"))

/-- `section.querySelector('h3')`. -/
def sectionHeading (s : Elem) : Option Elem :=
  (descOf s).find? (fun e => e.tag == "h3")

/-- Body of `providerSections.forEach(section => …)`: only a section whose
heading text, trimmed and lower-cased, equals "stream" is processed. -/
def processSection (acc : List (String × List String)) (s : Elem) :
    List (String × List String) :=
  match sectionHeading s with
  | none => acc
  | some h3 =>
    if jsToLower (jsTrim h3.text) = "stream" then (offerItems s).foldl processOffer acc
    else acc

/-- `doc.querySelectorAll('.ott_provider')`. -/
def providerSections (roots : List Elem) : List Elem :=
  (elemsDesc roots).filter (fun e => decide ("ott_provider" ∈ e.classes))

/-- The pure extraction run by `scrapeTmdbWatchPage` on the parsed document
(lines 88–130 of the direct-fetch variant, identical in the proxied one). -/
def extract (roots : List Elem) : ExtractionResult :=
  { justWatchUrl := findJustWatchUrl roots
    providersInfo := (providerSections roots).foldl processSection [] }

/-- Outcome of one `fetch`: a rejected promise (network error) or a response
with its `ok` flag and the parsed body. -/
inductive FetchOutcome where
  | netError (msg : String)
  | resp (ok : Bool) (doc : List Elem)

/-- Direct-fetch variant of `scrapeTmdbWatchPage` (first copy of the Azure
Function): fetches `url` itself; any non-ok status or network error is caught
and turned into the empty result.  Also returns the list of URLs requested. -/
def scrapeDirect (f : String → FetchOutcome) (url : String) :
    ExtractionResult × List String :=
  match f url with
  | .netError _ => (emptyExtraction, [url])
  | .resp ok doc => if ok then (extract doc, [url]) else (emptyExtraction, [url])

/-- Hex digit (upper case) for percent-encoding. -/
def hexDigit (n : Nat) : Char :=
  if n < 10 then Char.ofNat (48 + n) else Char.ofNat (55 + n)

/-- UTF-8 bytes of a code point. -/
def utf8Bytes (n : Nat) : List Nat :=
  if n < 0x80 then [n]
  else if n < 0x800 then [0xC0 + n / 0x40, 0x80 + n % 0x40]
  else if n < 0x10000 then [0xE0 + n / 0x1000, 0x80 + (n / 0x40) % 0x40, 0x80 + n % 0x40]
  else [0xF0 + n / 0x40000, 0x80 + (n / 0x1000) % 0x40, 0x80 + (n / 0x40) % 0x40,
        0x80 + n % 0x40]

/-- Characters `encodeURIComponent` leaves unescaped. -/
def isUnreservedUri (c : Char) : Bool :=
  c.isAlphanum || c = '-' || c = '_' || c = '.' || c = '!' || c = '~' || c = '*' ||
    c = '(' || c = ')' || c = Char.ofNat 39

/-- Model of JS `encodeURIComponent`. -/
def encodeURIComponent (s : String) : String :=
  ⟨s.data.flatMap (fun c =>
    if isUnreservedUri c then [c]
    else (utf8Bytes c.toNat).flatMap (fun b => ['%', hexDigit (b / 16), hexDigit (b % 16)]))⟩

/-- `const proxyUrl = ` + "`https://corsproxy.io/?${encodeURIComponent(url)}`". -/
def proxyUrl (url : String) : String :=
  "https://corsproxy.io/?" ++ encodeURIComponent url

/-- Proxied variant of `scrapeTmdbWatchPage` (second copy of the Azure
Function): fetches only the CORS-proxy URL; the target URL itself is never
requested. -/
def scrapeProxied (f : String → FetchOutcome) (url : String) :
    ExtractionResult × List String :=
  match f (proxyUrl url) with
  | .netError _ => (emptyExtraction, [proxyUrl url])
  | .resp ok doc => if ok then (extract doc, [proxyUrl url]) else (emptyExtraction, [proxyUrl url])

/-- Outcome of the client-side call to `/api/tmdb?url=…`. -/
inductive ApiOutcome where
  | err (msg : String)
  | resp (ok : Bool) (data : ExtractionResult)

/-- The client wrapper `scrapeTmdbWatchPage` of `script.js` lines 22–34:
non-ok responses and thrown errors both collapse to the empty result. -/
def scrapeTmdbWatchPageClient : ApiOutcome → ExtractionResult
  | .err _ => emptyExtraction
  | .resp ok data => if ok then data else emptyExtraction

/-! ## Totality and well-formedness of the Extractor (C3) -/

/-- A well-formed extraction result: every provider's quality list is
duplicate-free and mentions only the three known tiers. -/
def WellFormedResult (r : ExtractionResult) : Prop :=
  ∀ p ∈ r.providersInfo, p.2.Nodup ∧ p.2 ⊆ ["4K", "HD", "SD"]

/-- Accumulator invariant during section/offer processing. -/
def WFAcc (acc : List (String × List String)) : Prop :=
  ∀ p ∈ acc, p.2.Nodup ∧ p.2 ⊆ ["4K", "HD", "SD"]

theorem setAdd_wf (l : List String) (q : String) (Q : List String)
    (h1 : l.Nodup) (h2 : l ⊆ Q) (hq : q ∈ Q) :
    (setAdd l q).Nodup ∧ setAdd l q ⊆ Q := by
  refine ⟨setAdd_nodup l q h1, ?_⟩
  intro x hx
  rcases (mem_setAdd l q x).mp hx with h | rfl
  · exact h2 h
  · exact hq

theorem addQualities_wf (li : Elem) (l : List String)
    (h1 : l.Nodup) (h2 : l ⊆ ["4K", "HD", "SD"]) :
    (addQualities li l).Nodup ∧ addQualities li l ⊆ ["4K", "HD", "SD"] := by
  have step : ∀ (l' : List String) (q : String) (b : Prop) [Decidable b],
      q ∈ ["4K", "HD", "SD"] → l'.Nodup ∧ l' ⊆ ["4K", "HD", "SD"] →
        (if b then setAdd l' q else l').Nodup ∧
          (if b then setAdd l' q else l') ⊆ ["4K", "HD", "SD"] := by
    intro l' q b _ hq h
    by_cases hb : b
    · simpa [if_pos hb] using setAdd_wf l' q _ h.1 h.2 hq
    · simpa [if_neg hb] using h
  exact step _ "SD" _ (by simp) (step _ "HD" _ (by simp) (step _ "4K" _ (by simp) ⟨h1, h2⟩))

theorem updateInfo_wf (acc : List (String × List String)) (n : String)
    (f : List String → List String)
    (hacc : WFAcc acc)
    (hf : ∀ l, l.Nodup ∧ l ⊆ ["4K", "HD", "SD"] →
      (f l).Nodup ∧ f l ⊆ ["4K", "HD", "SD"]) :
    WFAcc (updateInfo acc n f) := by
  induction acc with
  | nil => exact hacc
  | cons p t ih =>
    obtain ⟨n₀, qs⟩ := p
    by_cases h : n₀ = n
    · simp only [updateInfo, if_pos h]
      intro q hq
      rcases List.mem_cons.mp hq with h1 | h2
      · rw [h1]
        exact hf qs (hacc ⟨n₀, qs⟩ (List.mem_cons_self _ _))
      · exact hacc q (List.mem_cons_of_mem _ h2)
    · simp only [updateInfo, if_neg h]
      intro q hq
      rcases List.mem_cons.mp hq with h1 | h2
      · rw [h1]
        exact hacc ⟨n₀, qs⟩ (List.mem_cons_self _ _)
      · exact ih (fun r hr => hacc r (List.mem_cons_of_mem _ hr)) q h2

theorem processOffer_wf (acc : List (String × List String)) (li : Elem)
    (hacc : WFAcc acc) : WFAcc (processOffer acc li) := by
  unfold processOffer
  cases offerAnchor li with
  | none => exact hacc
  | some link =>
    by_cases ht : link.attrTitle = ""
    · simpa [if_pos ht] using hacc
    · simp only [if_neg ht]
      cases providerNameOf link.attrTitle with
      | none => exact hacc
      | some name =>
        have hacc' : WFAcc (if hasName acc name then acc else acc ++ [(name, [])]) := by
          by_cases hn : hasName acc name = true
          · simpa [hn] using hacc
          · simp only [hn, if_false, Bool.false_eq_true]
            intro q hq
            rcases List.mem_append.mp hq with h1 | h2
            · exact hacc q h1
            · simp only [List.mem_singleton] at h2
              rw [h2]
              exact ⟨List.nodup_nil, by simp⟩
        exact updateInfo_wf _ name _ hacc' (fun l hl => addQualities_wf li l hl.1 hl.2)

theorem foldl_processOffer_wf (lis : List Elem) :
    ∀ (acc : List (String × List String)), WFAcc acc →
      WFAcc (lis.foldl processOffer acc) := by
  induction lis with
  | nil => exact fun acc h => h
  | cons li t ih => exact fun acc h => ih _ (processOffer_wf acc li h)

theorem processSection_wf (acc : List (String × List String)) (s : Elem)
    (hacc : WFAcc acc) : WFAcc (processSection acc s) := by
  unfold processSection
  cases sectionHeading s with
  | none => exact hacc
  | some h3 =>
    by_cases h : jsToLower (jsTrim h3.text) = "stream"
    · simpa [if_pos h] using foldl_processOffer_wf (offerItems s) acc hacc
    · simpa [if_neg h] using hacc

theorem foldl_processSection_wf (ss : List Elem) :
    ∀ (acc : List (String × List String)), WFAcc acc →
      WFAcc (ss.foldl processSection acc) := by
  induction ss with
  | nil => exact fun acc h => h
  | cons s t ih => exact fun acc h => ih _ (processSection_wf acc s h)

theorem extract_wf (roots : List Elem) : WellFormedResult (extract roots) := by
  unfold extract WellFormedResult
  exact foldl_processSection_wf (providerSections roots) [] (by intro p hp; simp at hp)

/-- **C3.**  The Page Extractor is total: it is a function on parsed
documents (JSDOM parses any text — empty, binary garbage or unrelated HTML —
into some tree without throwing), it always returns a well-formed
`ExtractionResult`, and every fetch/parse failure path — a rejected fetch, a
non-ok response, at either the server scraper (both variants) or the client
wrapper — yields exactly `{ justWatchUrl: null, providersInfo: {} }`. -/
theorem extractor_total_wellformed :
    (∀ roots : List Elem, WellFormedResult (extract roots)) ∧
    (∀ (f : String → FetchOutcome) (url : String),
        WellFormedResult (scrapeDirect f url).1 ∧ WellFormedResult (scrapeProxied f url).1) ∧
    (∀ (f : String → FetchOutcome) (url msg : String),
        f url = FetchOutcome.netError msg → scrapeDirect f url = (emptyExtraction, [url])) ∧
    (∀ (f : String → FetchOutcome) (url : String) (doc : List Elem),
        f url = FetchOutcome.resp false doc → scrapeDirect f url = (emptyExtraction, [url])) ∧
    (∀ msg : String, scrapeTmdbWatchPageClient (ApiOutcome.err msg) = emptyExtraction) ∧
    (∀ r : ExtractionResult, scrapeTmdbWatchPageClient (ApiOutcome.resp false r) = emptyExtraction) := by
  refine ⟨extract_wf, ?_, ?_, ?_, fun _ => rfl, fun _ => rfl⟩
  · intro f url
    constructor
    · unfold scrapeDirect
      cases f url with
      | netError _ => intro p hp; simp [emptyExtraction] at hp
      | resp ok doc =>
        by_cases h : ok = true
        · simpa [h] using extract_wf doc
        · simp only [h]
          intro p hp
          simp [Bool.false_eq_true, emptyExtraction] at hp
    · unfold scrapeProxied
      cases f (proxyUrl url) with
      | netError _ => intro p hp; simp [emptyExtraction] at hp
      | resp ok doc =>
        by_cases h : ok = true
        · simpa [h] using extract_wf doc
        · simp only [h]
          intro p hp
          simp [Bool.false_eq_true, emptyExtraction] at hp
  · intro f url msg h
    unfold scrapeDirect
    rw [h]
  · intro f url doc h
    unfold scrapeDirect
    rw [h]
    rfl

/-- Witness for C3: a concrete blocked fetch yields the empty result. -/
theorem extractor_total_wellformed_witness :
    scrapeDirect (fun _ => FetchOutcome.netError "blocked") "https://example.org"
      = (emptyExtraction, ["https://example.org"]) :=
  extractor_total_wellformed.2.2.1 (fun _ => FetchOutcome.netError "blocked")
    "https://example.org" "blocked" rfl

/-! ## Quality tier ordering (C5) -/

/-- `updateDropdownContent` renders `info.stream.map(q => span)` — the tier
labels appear in the array's order; the rendering step performs no
re-ordering of the quality tiers. -/
def renderedQualities (stream : List String) : List String := stream.map (fun q => q)

/-- Stated from the spec's words, for comparison: the fixed canonical
rendering order SD, then HD, then 4K, restricted to the tiers present. -/
def canonicalQualityOrder (l : List String) : List String :=
  ["SD", "HD", "4K"].filter (· ∈ l)

/-- A document with one "Stream" section holding a single offer entry for
provider "Hulu" whose quality markers are given by the three flags
(4K, HD, SD). -/
def singleOfferDoc (b4 bhd bsd : Bool) : List Elem :=
  [.mk "div" ["ott_provider"] "" "" ""
    [.mk "h3" [] "" "" "Stream" [],
     .mk "ul" ["providers"] "" "" ""
       [.mk "li"
          ((if b4 then ["ott_filter_4k"] else []) ++
           (if bhd then ["ott_filter_hd"] else []) ++
           (if bsd then ["ott_filter_sd"] else [])) "" "" ""
          [.mk "a" [] "Watch Foo on Hulu" "" "" []]]]]

/-- **C5 (amended).**  Every provider's quality-tier list is duplicate-free
and drawn from 4K/HD/SD, and the tiers are kept and rendered in insertion
order, where one offer entry's markers are examined in the fixed source
order 4K, HD, SD — so a single-entry provider renders as the sublist of
[4K, HD, SD] (descending), not in the canonical ascending order SD, HD, 4K. -/
theorem extract_quality_nodup_insertion_order :
    (∀ roots : List Elem, ∀ p ∈ (extract roots).providersInfo,
        p.2.Nodup ∧ p.2 ⊆ ["4K", "HD", "SD"]) ∧
    (∀ qs : List String, renderedQualities qs = qs) ∧
    (∀ b4 bhd bsd : Bool,
        (extract (singleOfferDoc b4 bhd bsd)).providersInfo
          = [("Hulu", (if b4 then ["4K"] else []) ++ (if bhd then ["HD"] else []) ++
              (if bsd then ["SD"] else []))]) := by
  refine ⟨extract_wf, fun qs => List.map_id _, ?_⟩
  decide

/-- **C5 (counterexample).**  An entry carrying the HD and SD markers is
extracted and rendered as ["HD", "SD"], not in the claimed canonical order
["SD", "HD"]. -/
theorem extract_quality_order_not_canonical :
    (extract (singleOfferDoc false true true)).providersInfo = [("Hulu", ["HD", "SD"])] ∧
    renderedQualities ["HD", "SD"] = ["HD", "SD"] ∧
    canonicalQualityOrder ["HD", "SD"] = ["SD", "HD"] ∧
    renderedQualities ["HD", "SD"] ≠ canonicalQualityOrder ["HD", "SD"] := by
  refine ⟨by decide, by decide, by decide, by decide⟩

/-! ## Provider-name derivation from the title attribute (C7) -/

theorem firstOnSuffixL_spec : ∀ (l cap : List Char), firstOnSuffixL l = some cap →
    ∃ pre : List Char, l = pre ++ 'o' :: 'n' :: ' ' :: cap ∧
      ∀ (pre' suf : List Char), l = pre' ++ 'o' :: 'n' :: ' ' :: suf →
        pre.length ≤ pre'.length := by
  intro l
  induction l with
  | nil => intro cap h; simp [firstOnSuffixL] at h
  | cons c1 t ih =>
    intro cap h
    cases t with
    | nil => simp [firstOnSuffixL] at h
    | cons c2 t2 =>
      cases t2 with
      | nil => simp [firstOnSuffixL] at h
      | cons c3 rest =>
        by_cases hc : c1 = 'o' ∧ c2 = 'n' ∧ c3 = ' '
        · rw [firstOnSuffixL, if_pos hc] at h
          obtain ⟨rfl, rfl, rfl⟩ := hc
          injection h with h'
          subst h'
          exact ⟨[], rfl, fun pre' suf hps => Nat.zero_le _⟩
        · rw [firstOnSuffixL, if_neg hc] at h
          obtain ⟨pre, hpre, hmin⟩ := ih cap h
          refine ⟨c1 :: pre, by rw [List.cons_append, hpre], ?_⟩
          intro pre' suf hps
          cases pre' with
          | nil =>
            exfalso
            apply hc
            injection hps with e1 hps1
            injection hps1 with e2 hps2
            injection hps2 with e3 _
            exact ⟨e1, e2, e3⟩
          | cons d pre'' =>
            injection hps with e1 hps'
            have := hmin pre'' suf hps'
            simp only [List.length_cons]
            omega

/-- **C7 (amended).**  When the extractor accepts an offer entry, the
provider name is exactly the suffix after the *first* (leftmost) occurrence
of the literal "on " in the title's final line segment, kept verbatim (no
whitespace trimming), and it is non-empty; an entry whose anchor title
yields no name is skipped leaving the accumulated result unchanged. -/
theorem providerName_first_capture_and_skip :
    (∀ (t cap : String), providerNameOf t = some cap →
        cap ≠ "" ∧ ∃ pre : List Char,
          lastLineSegment t.data = pre ++ 'o' :: 'n' :: ' ' :: cap.data ∧
          ∀ (pre' suf : List Char),
            lastLineSegment t.data = pre' ++ 'o' :: 'n' :: ' ' :: suf →
              pre.length ≤ pre'.length) ∧
    (∀ (acc : List (String × List String)) (li link : Elem),
        offerAnchor li = some link → providerNameOf link.attrTitle = none →
          processOffer acc li = acc) := by
  constructor
  · intro t cap h
    unfold providerNameOf at h
    cases hf : firstOnSuffixL (lastLineSegment t.data) with
    | none => rw [hf] at h; exact absurd h (by simp)
    | some capL =>
      rw [hf] at h
      dsimp only at h
      by_cases hcl : capL = []
      · rw [if_pos hcl] at h
        exact absurd h (by simp)
      · rw [if_neg hcl] at h
        injection h with h'
        subst h'
        refine ⟨?_, firstOnSuffixL_spec _ capL hf⟩
        intro he
        exact hcl (congrArg String.data he)
  · intro acc li link ha hn
    unfold processOffer
    rw [ha]
    dsimp only
    by_cases ht : link.attrTitle = ""
    · rw [if_pos ht]
    · rw [if_neg ht, hn]

/-- Witness for C7: a well-behaved title produces its provider name, which
is non-empty. -/
theorem providerName_first_capture_and_skip_witness :
    ("Hulu" : String) ≠ "" :=
  (providerName_first_capture_and_skip.1 "Watch Foo on Hulu" "Hulu" (by decide)).1

/-- Stated from the claim's words, for comparison: the capture after the
*last* occurrence of the literal "on ". -/
def lastOnSuffixL : List Char → Option (List Char)
  | c1 :: c2 :: c3 :: rest =>
    match lastOnSuffixL (c2 :: c3 :: rest) with
    | some r => some r
    | none => if c1 = 'o' ∧ c2 = 'n' ∧ c3 = ' ' then some rest else none
  | _ => none

/-- Stated from the claim's words, for comparison: provider name = capture
after the last occurrence of "on ", with surrounding whitespace trimmed. -/
def specProviderName (title : String) : Option String :=
  (lastOnSuffixL title.data).map (fun cap => jsTrim ⟨cap⟩)

/-- A "Stream" section whose single offer's anchor title contains "on "
twice. -/
def c7doc : List Elem :=
  [.mk "div" ["ott_provider"] "" "" ""
    [.mk "h3" [] "" "" "Stream" [],
     .mk "ul" ["providers"] "" "" ""
       [.mk "li" ["ott_filter_hd"] "" "" ""
          [.mk "a" [] "Watch Season on TV on Netflix" "" "" []]]]]

/-- **C7 (counterexample).**  The extractor takes the capture after the
*first* "on " and does not trim it: on the title
"Watch Season on TV on Netflix" it derives "on TV on Netflix" where the
claim's last-occurrence-trimmed rule would give "Netflix"; on
"Watch X on  Hulu" it derives " Hulu" (leading space kept) where the claim
would give "Hulu". -/
theorem providerName_not_last_not_trimmed :
    providerNameOf "Watch Season on TV on Netflix" = some "on TV on Netflix" ∧
    specProviderName "Watch Season on TV on Netflix" = some "Netflix" ∧
    providerNameOf "Watch Season on TV on Netflix"
      ≠ specProviderName "Watch Season on TV on Netflix" ∧
    providerNameOf "Watch X on  Hulu" = some " Hulu" ∧
    specProviderName "Watch X on  Hulu" = some "Hulu" ∧
    (extract c7doc).providersInfo = [("on TV on Netflix", ["HD"])] := by
  refine ⟨by decide, by decide, by decide, by decide, by decide, by decide⟩

/-! ## Fetch strategy: no fallback between the two paths (C4) -/

/-- **C4 (amended).**  Each variant of the scraper issues exactly one
retrieval per enrichment URL — the direct GET in the first variant, the
proxied GET (target URL percent-encoded as a parameter) in the second — and
when that single retrieval fails (network error or non-ok status) it reports
the empty result without attempting the other path. -/
theorem scrape_single_request_no_fallback :
    (∀ (f : String → FetchOutcome) (url : String),
        (scrapeDirect f url).2 = [url] ∧ (scrapeProxied f url).2 = [proxyUrl url]) ∧
    (∀ (f : String → FetchOutcome) (url msg : String),
        f url = FetchOutcome.netError msg →
          scrapeDirect f url = (emptyExtraction, [url])) ∧
    (∀ (f : String → FetchOutcome) (url : String) (doc : List Elem),
        f url = FetchOutcome.resp false doc →
          scrapeDirect f url = (emptyExtraction, [url])) ∧
    (∀ (f : String → FetchOutcome) (url msg : String),
        f (proxyUrl url) = FetchOutcome.netError msg →
          scrapeProxied f url = (emptyExtraction, [proxyUrl url])) ∧
    (∀ (f : String → FetchOutcome) (url : String) (doc : List Elem),
        f (proxyUrl url) = FetchOutcome.resp false doc →
          scrapeProxied f url = (emptyExtraction, [proxyUrl url])) := by
  refine ⟨?_, ?_, ?_, ?_, ?_⟩
  · intro f url
    constructor
    · unfold scrapeDirect
      cases f url with
      | netError _ => rfl
      | resp ok doc => by_cases h : ok = true <;> simp [h]
    · unfold scrapeProxied
      cases f (proxyUrl url) with
      | netError _ => rfl
      | resp ok doc => by_cases h : ok = true <;> simp [h]
  · intro f url msg h
    unfold scrapeDirect
    rw [h]
  · intro f url doc h
    unfold scrapeDirect
    rw [h]
    rfl
  · intro f url msg h
    unfold scrapeProxied
    rw [h]
  · intro f url doc h
    unfold scrapeProxied
    rw [h]
    rfl

/-- Witness for C4 (amended): concrete blocked fetch, single request. -/
theorem scrape_single_request_no_fallback_witness :
    scrapeProxied (fun _ => FetchOutcome.netError "blocked") "https://t"
      = (emptyExtraction, [proxyUrl "https://t"]) :=
  scrape_single_request_no_fallback.2.2.2.1 (fun _ => FetchOutcome.netError "blocked")
    "https://t" "blocked" rfl

/-- Concrete enrichment URL for the C4 counterexample. -/
def c4url : String := "https://www.themoviedb.org/movie/550/watch?locale=US"

/-- A fetch oracle on which every request fails (origin blocks scraping). -/
def blockedFetch : String → FetchOutcome := fun _ => FetchOutcome.netError "403 blocked"

/-- **C4 (counterexample).**  With the direct-fetch variant deployed and the
direct GET of `c4url` not retrievable, the scraper reports failure (the
empty result) having requested only the direct URL: the proxied URL is never
requested, so no fallback to the indirect path happens before failure is
reported. -/
theorem scrapeDirect_blocked_no_proxy_request :
    blockedFetch c4url = FetchOutcome.netError "403 blocked" ∧
    scrapeDirect blockedFetch c4url = (emptyExtraction, [c4url]) ∧
    proxyUrl c4url ∉ (scrapeDirect blockedFetch c4url).2 := by
  refine ⟨rfl, rfl, by decide⟩

/-! ## Per-country dropdown enrichment cache (C6)

`addDropdownListener` guards the fetch with
`jwLinkElement.dataset.status === 'loading'`, and `updateDropdownContent`
sets `dataset.status = 'loaded'` only when the awaited scrape resolves.  One
country tag is modelled as a state machine driven by two events: a user
click on the tag, and the resolution of one in-flight scrape. -/

/-- State of one country tag: dropdown visibility (`show` class), the
`dataset.status` string, the number of in-flight scrapes, and
instrumentation counting issued fetches and dropdown-content writes. -/
structure TagState where
  shown : Bool
  status : String
  pending : Nat
  fetchCount : Nat
  detail : Option ExtractionResult
  writes : Nat
deriving DecidableEq, Repr

/-- Events: a click on the tag, or the resolution of one in-flight scrape
delivering result `r`. -/
inductive TagEvent where
  | click
  | complete (r : ExtractionResult)
deriving DecidableEq, Repr

/-- A freshly created dropdown: hidden, `data-status="loading"`, nothing in
flight, nothing cached. -/
def initTag : TagState :=
  { shown := false, status := "loading", pending := 0, fetchCount := 0,
    detail := none, writes := 0 }

/-- The click handler of `addDropdownListener` (lines 300–321) and the
completion continuation `updateDropdownContent` (lines 327–342): a click on
an open dropdown closes it; a click on a closed one opens it and, if the
status is still "loading", issues a scrape; a resolving scrape writes the
dropdown content and sets the status to "loaded". -/
def tagStep (s : TagState) : TagEvent → TagState
  | .click =>
    if s.shown then { s with shown := false }
    else
      if s.status = "loading" then
        { s with shown := true, pending := s.pending + 1,
                 fetchCount := s.fetchCount + 1 }
      else { s with shown := true }
  | .complete r =>
    if s.pending > 0 then
      { s with pending := s.pending - 1, status := "loaded", detail := some r,
               writes := s.writes + 1 }
    else s

/-- Run a sequence of events. -/
def runTag (s : TagState) (evs : List TagEvent) : TagState := evs.foldl tagStep s

/-- **C6 (amended).**  Once a country's enrichment has *completed* (status
"loaded", nothing in flight), any further interaction — in particular
re-expanding the tag — issues no further fetch, writes the cache slot no
further time, and leaves the cached `CountryDetail` unchanged.  (The guard is
completion-based: as the counterexample shows, re-expanding while a fetch is
still in flight does issue a duplicate fetch, so at-most-once holds per
*completed* enrichment, not per started one.) -/
theorem tag_loaded_no_refetch :
    ∀ (evs : List TagEvent) (s : TagState), s.status = "loaded" → s.pending = 0 →
      (runTag s evs).fetchCount = s.fetchCount ∧ (runTag s evs).detail = s.detail ∧
        (runTag s evs).writes = s.writes := by
  intro evs
  induction evs with
  | nil => exact fun s _ _ => ⟨rfl, rfl, rfl⟩
  | cons e t ih =>
    intro s h1 h2
    have hne : ("loaded" : String) ≠ "loading" := by decide
    have hstep : (tagStep s e).status = "loaded" ∧ (tagStep s e).pending = 0 ∧
        (tagStep s e).fetchCount = s.fetchCount ∧ (tagStep s e).detail = s.detail ∧
        (tagStep s e).writes = s.writes := by
      cases e with
      | click =>
        by_cases hs : s.shown = true
        · simp [tagStep, hs, h1, h2]
        · simp [tagStep, hs, h1, h2, hne]
      | complete r => simp [tagStep, h2, h1]
    obtain ⟨ha, hb, hc, hd, he⟩ := hstep
    have ih' := ih (tagStep s e) ha hb
    simp only [runTag, List.foldl_cons] at *
    exact ⟨ih'.1.trans hc, ih'.2.1.trans hd, ih'.2.2.trans he⟩

/-- Witness for C6 (amended): after one expansion and its completion, two
further clicks (close, re-open) trigger no second fetch. -/
theorem tag_loaded_no_refetch_witness :
    (runTag (runTag initTag [TagEvent.click, TagEvent.complete emptyExtraction])
        [TagEvent.click, TagEvent.click]).fetchCount
      = (runTag initTag [TagEvent.click, TagEvent.complete emptyExtraction]).fetchCount :=
  (tag_loaded_no_refetch [TagEvent.click, TagEvent.click]
    (runTag initTag [TagEvent.click, TagEvent.complete emptyExtraction])
    (by decide) (by decide)).1

/-- **C6 (counterexample).**  Expanding, collapsing and re-expanding the same
tag before the first scrape resolves issues a second fetch (the status is
still "loading" when the third click arrives), and when both scrapes resolve
the cache slot is written twice — refuting "a fetch is issued only when that
country has never completed (or started) enrichment" and "each cache slot is
written at most once". -/
theorem tag_refetch_while_in_flight :
    (runTag initTag [TagEvent.click, TagEvent.click, TagEvent.click]).fetchCount = 2 ∧
    ¬ ((runTag initTag [TagEvent.click, TagEvent.click, TagEvent.click]).fetchCount ≤ 1) ∧
    (runTag initTag [TagEvent.click, TagEvent.click, TagEvent.click,
        TagEvent.complete emptyExtraction,
        TagEvent.complete ⟨some "https://justwatch.com/x", []⟩]).writes = 2 := by
  refine ⟨by decide, by decide, by decide⟩

/-! ## Country display names and their ordering (C8)

`getCountryName` consults `Intl.DisplayNames(['en'], {type:'region'})` — an
external locale-aware lookup, modelled as an oracle `names`; a throwing
lookup (oracle `none`) falls back to `code.toUpperCase()`.  The comparator
`localeCompare` is likewise external; it is modelled as any total transitive
comparison `cmp` (`cmp a b ↔ a.localeCompare(b) ≤ 0`). -/

/-- `getCountryName` of `script.js` lines 377–385. -/
def getCountryName (names : String → Option String) (code : String) : String :=
  match names (jsToUpper code) with
  | some n => n
  | none => jsToUpper code

/-- `Array.from(provider.countries).sort((a, b) => getCountryName(a).localeCompare(getCountryName(b)))`
(`displayResults` line 240). -/
def sortedCountries (cmp : String → String → Bool) (names : String → Option String)
    (countries : List String) : List String :=
  jsSort (fun a b => cmp (getCountryName names a) (getCountryName names b)) countries

/-- **C8.**  The countries of a `ProviderEntry` are exposed as a permutation
of the stored set, sorted by localized display name (not by code) under the
external comparator; and a code with no localized display name available
falls back to the raw code itself (via `toUpperCase`, the identity on the
upper-case codes that key the availability map) as display name and sort
key. -/
theorem sortedCountries_by_display_name
    (cmp : String → String → Bool) (names : String → Option String)
    (countries : List String)
    (htot : ∀ a b, cmp a b = true ∨ cmp b a = true)
    (htrans : ∀ a b c, cmp a b = true → cmp b c = true → cmp a c = true) :
    (sortedCountries cmp names countries).Perm countries ∧
    (sortedCountries cmp names countries).Pairwise
      (fun a b => cmp (getCountryName names a) (getCountryName names b) = true) ∧
    (∀ code : String, names (jsToUpper code) = none →
        getCountryName names code = jsToUpper code) ∧
    (∀ code : String, jsToUpper code = code → names code = none →
        getCountryName names code = code) := by
  refine ⟨jsSort_perm _ _, ?_, ?_, ?_⟩
  · unfold sortedCountries
    exact jsSort_pairwise _
      (fun a b => htot (getCountryName names a) (getCountryName names b))
      (fun a b c hab hbc => htrans (getCountryName names a) (getCountryName names b)
        (getCountryName names c) hab hbc) countries
  · intro code h
    unfold getCountryName
    rw [h]
  · intro code hup hnone
    unfold getCountryName
    rw [hup, hnone]

/-- Witness for C8: a concrete total transitive comparator (ordering by
length) and an oracle with no localizations. -/
theorem sortedCountries_by_display_name_witness :
    (sortedCountries (fun a b => decide (a.data.length ≤ b.data.length))
        (fun _ => none) ["US", "FR"]).Perm ["US", "FR"] :=
  (sortedCountries_by_display_name (fun a b => decide (a.data.length ≤ b.data.length))
    (fun _ => none) ["US", "FR"]
    (fun a b => (Nat.le_total a.data.length b.data.length).imp decide_eq_true decide_eq_true)
    (fun _ _ _ hab hbc => decide_eq_true
      (Nat.le_trans (of_decide_eq_true hab) (of_decide_eq_true hbc)))).1

/-! ## The key-holding relay (C9, C10)

`module.exports` of the Azure Function: query parameters are the association
list of the request's query string; `req.query.endpoint` / `req.query.url`
are its lookups, and the JS truthiness test `if (endpoint)` is false for both
an absent parameter and an empty-string value.  The two upstream
interactions (the authorized TMDB API fetch and the scrape of the target
page) are recorded as effects. -/

/-- JS truthiness of an optional string: `undefined` and `""` are falsy. -/
def truthy : Option String → Bool
  | none => false
  | some s => s ≠ ""

/-- Body of a relay response. -/
inductive RelayBody where
  | text (s : String)
  | json (s : String)
  | scraped (r : ExtractionResult)
deriving DecidableEq, Repr

/-- `context.res`: status and body. -/
structure RelayResp where
  status : Nat
  body : RelayBody
deriving DecidableEq, Repr

/-- Upstream requests the handler performs. -/
inductive RelayEffect where
  | apiFetch (u : String)
  | scrapeFetch (u : String)
deriving DecidableEq, Repr

/-- Outcome of the authorized TMDB API fetch: a rejected promise, or a
response with `ok`, `status` and JSON body. -/
inductive UpstreamOutcome where
  | err (msg : String)
  | resp (ok : Bool) (statusCode : Nat) (body : String)

/-- First occurrence of `pat` removed (JS `String.prototype.replace` with a
string pattern and empty replacement). -/
def replaceFirstChars (pat : List Char) : List Char → List Char
  | [] => []
  | c :: t =>
    if startsWithChars pat (c :: t) then (c :: t).drop pat.length
    else c :: replaceFirstChars pat t

/-- `new URLSearchParams(req.query).toString()` (component percent-encoding
elided — no claim depends on it) followed by
`.replace("endpoint=" + endpoint + "&", "")`. -/
def relayQueryString (ep : String) (q : List (String × String)) : String :=
  ⟨replaceFirstChars ("endpoint=" ++ ep ++ "&").data
    (String.intercalate "&" (q.map (fun p => p.1 ++ "=" ++ p.2))).data⟩

/-- The TMDB API URL the endpoint branch fetches. -/
def tmdbApiUrl (ep : String) (q : List (String × String)) : String :=
  "https://api.themoviedb.org/3/" ++ ep ++ "?" ++ relayQueryString ep q

/-- `module.exports` (both copies are identical here): the `TMDB_API_KEY`
guard, then the `endpoint` branch, then the `url` branch, then 400.  Returns
the response together with the upstream requests performed. -/
def relayHandler (key : Option String) (q : List (String × String))
    (apiF : String → UpstreamOutcome) (scrapeF : String → ExtractionResult) :
    RelayResp × List RelayEffect :=
  if truthy key = false then
    (⟨500, .text "Server configuration error: TMDB_API_KEY is not set."⟩, [])
  else
    let endpoint := q.lookup "endpoint"
    let urlToScrape := q.lookup "url"
    if truthy endpoint = true then
      let ep := endpoint.getD ""
      let u := tmdbApiUrl ep q
      match apiF u with
      | .err msg => (⟨500, .text ("An error occurred: " ++ msg)⟩, [.apiFetch u])
      | .resp ok statusCode body =>
        if ok then (⟨200, .json body⟩, [.apiFetch u])
        else (⟨500, .text ("An error occurred: TMDB API request failed with status: "
                ++ toString statusCode)⟩, [.apiFetch u])
    else if truthy urlToScrape = true then
      let u := urlToScrape.getD ""
      (⟨200, .scraped (scrapeF u)⟩, [.scrapeFetch u])
    else
      (⟨400, .text "Bad Request: Please provide either an 'endpoint' or a 'url' query parameter."⟩, [])

/-- **C10.**  With `TMDB_API_KEY` unset, every request — whatever its query
parameters, including pure scrape requests that never use the credential —
receives status 500 and no upstream fetch or scrape is performed. -/
theorem relay_no_key_500_no_fetch (q : List (String × String))
    (apiF : String → UpstreamOutcome) (scrapeF : String → ExtractionResult) :
    relayHandler none q apiF scrapeF
      = (⟨500, RelayBody.text "Server configuration error: TMDB_API_KEY is not set."⟩,
          []) := rfl

/-- **C9 (amended).**  With the API key configured: a request whose
`endpoint` parameter has a *non-empty* value executes only the
metadata-forwarding branch — exactly one API fetch, never a scrape —
whatever its `url` parameter; and a request supplying neither parameter
yields 400 Bad Request with no upstream request.  (An empty-string
`endpoint` value is falsy in JS, so it is treated as absent: with a `url`
also supplied, the scrape branch executes — see the counterexample.) -/
theorem relay_dispatch (key : Option String) (q : List (String × String))
    (apiF : String → UpstreamOutcome) (scrapeF : String → ExtractionResult)
    (hkey : truthy key = true) :
    (truthy (q.lookup "endpoint") = true →
      (relayHandler key q apiF scrapeF).2
          = [RelayEffect.apiFetch (tmdbApiUrl ((q.lookup "endpoint").getD "") q)] ∧
        ∀ u : String, RelayEffect.scrapeFetch u ∉ (relayHandler key q apiF scrapeF).2) ∧
    (q.lookup "endpoint" = none → q.lookup "url" = none →
      relayHandler key q apiF scrapeF
        = (⟨400, RelayBody.text
            "Bad Request: Please provide either an 'endpoint' or a 'url' query parameter."⟩,
           [])) := by
  constructor
  · intro hep
    unfold relayHandler
    rw [hkey]
    simp only [Bool.true_eq_false, if_false, hep, if_true]
    cases apiF (tmdbApiUrl ((q.lookup "endpoint").getD "") q) with
    | err msg => exact ⟨rfl, by simp⟩
    | resp ok statusCode body =>
      by_cases h : ok = true
      · simp only [if_pos h]
        exact ⟨trivial, by simp⟩
      · simp only [if_neg h]
        exact ⟨trivial, by simp⟩
  · intro hep hurl
    unfold relayHandler
    rw [hkey]
    simp [hep, hurl, truthy]

/-- Witness for C9 (amended): a pure metadata request performs exactly the
one API fetch. -/
theorem relay_dispatch_witness :
    (relayHandler (some "k") [("endpoint", "search/multi")]
        (fun _ => UpstreamOutcome.resp true 200 "{}") (fun _ => emptyExtraction)).2
      = [RelayEffect.apiFetch (tmdbApiUrl "search/multi" [("endpoint", "search/multi")])] :=
  ((relay_dispatch (some "k") [("endpoint", "search/multi")]
    (fun _ => UpstreamOutcome.resp true 200 "{}") (fun _ => emptyExtraction)
    (by decide)).1 (by decide)).1

/-- Query of the C9 counterexample: both parameters are supplied, but the
`endpoint` value is the empty string. -/
def c9query : List (String × String) := [("endpoint", ""), ("url", "https://t.example/w")]

/-- **C9 (counterexample).**  A request supplying *both* an `endpoint` and a
`url` query parameter — with the `endpoint` value empty — does not take the
metadata branch: the empty value is falsy, the handler falls through to the
scrape branch and the URL *is* scraped, refuting "only the
metadata-forwarding branch executes (… the URL is never scraped)" for such
requests. -/
theorem relay_both_params_scrapes :
    c9query.lookup "endpoint" = some "" ∧
    c9query.lookup "url" = some "https://t.example/w" ∧
    (relayHandler (some "k") c9query (fun _ => UpstreamOutcome.err "unused")
        (fun _ => emptyExtraction)).2 = [RelayEffect.scrapeFetch "https://t.example/w"] ∧
    (relayHandler (some "k") c9query (fun _ => UpstreamOutcome.err "unused")
        (fun _ => emptyExtraction)).1.status = 200 := by
  refine ⟨by decide, by decide, by decide, by decide⟩
